import Mathlib

/-!
Shallow embedding of `src/runtime/src/storage/mkvs/cas_patricia_trie/mod.rs`
(the `CASPatriciaTrie` write-buffering / encryption wrapper around a
CAS-backed patricia trie), together with spec-modelled definitions for the
collaborators that the wrapper delegates to (the trie engine in the
`nibble`/`node`/`trie` submodules, the `Hash` digest type and the
`DeoxysII` AEAD cipher), which are not part of the sources under scrutiny.

Byte strings are modelled as `List Nat`.
-/

/-- Byte strings (`Vec<u8>` / `&[u8]`). -/
abbrev Bytes := List Nat

/-- Decidable equality for `Except`, so that concrete results of fallible
operations can be evaluated by `decide`. -/
instance exceptDecEq {ε : Type u} {α : Type v} [DecidableEq ε] [DecidableEq α] :
    DecidableEq (Except ε α) := fun a b =>
  match a, b with
  | Except.ok x, Except.ok y =>
    if h : x = y then Decidable.isTrue (by rw [h])
    else Decidable.isFalse (fun hc => h (by cases hc; rfl))
  | Except.ok _, Except.error _ => Decidable.isFalse (fun hc => Except.noConfusion hc)
  | Except.error _, Except.ok _ => Decidable.isFalse (fun hc => Except.noConfusion hc)
  | Except.error x, Except.error y =>
    if h : x = y then Decidable.isTrue (by rw [h])
    else Decidable.isFalse (fun hc => h (by cases hc; rfl))

/-- Deoxys-II key size in bytes (`KEY_SIZE`). -/
def KEY_SIZE : Nat := 32

/-- Deoxys-II nonce size in bytes (`NONCE_SIZE`). -/
def NONCE_SIZE : Nat := 15

/-- Modelled from the spec: the AEAD cipher (`DeoxysII`) is an external
collaborator (`common::crypto::mrae::deoxysii`, not under the sources in
scrutiny); per the spec a cipher is created from a key, `seal` produces a
ciphertext and `open` recovers the plaintext under the same key and nonce,
failing authentication on any other bytes.  The cipher instance is modelled
by the key it was created from. -/
structure DeoxysII where
  key : Bytes
deriving DecidableEq

/-- Modelled from the spec: the authenticated header a sealed ciphertext
carries; it binds key, nonce and associated data injectively (length-tagged
concatenation), so that `open` succeeds exactly on ciphertexts produced by
`seal` under the same key, nonce and associated data. -/
def aeadHeader (key nonce ad : Bytes) : Bytes :=
  key.length :: key ++ nonce.length :: nonce ++ ad.length :: ad

/-- Modelled from the spec: `seal(nonce, plaintext, ad) -> ciphertext`,
authenticated encryption; modelled as the injective tagged encoding
`header ++ plaintext`. -/
def DeoxysII.seal (d : DeoxysII) (nonce : Bytes) (plaintext : Bytes) (ad : Bytes) : Bytes :=
  aeadHeader d.key nonce ad ++ plaintext

/-- Modelled from the spec: `open(nonce, ciphertext, ad) -> Result<plaintext>`,
returning `none` on authentication failure (the `Result` collapsed through
`.ok()` as the wrapper does).  Succeeds exactly on ciphertexts carrying the
header of this key, nonce and associated data. -/
def DeoxysII.openA (d : DeoxysII) (nonce : Bytes) (ciphertext : Bytes) (ad : Bytes) :
    Option Bytes :=
  let h := aeadHeader d.key nonce ad
  if ciphertext.take h.length = h then some (ciphertext.drop h.length) else none

/-- Encryption context (`EncryptionContext` in `mod.rs`): the MRAE cipher
plus the single nonce reused for every seal/open while the context is
active. -/
structure EncryptionContext where
  mrae_ctx : DeoxysII
  nonce : Bytes
deriving DecidableEq

/-- Pending database operation (`enum Operation` in `mod.rs`). -/
inductive Operation where
  /-- Insert key with given value (`Operation::Insert`). -/
  | insert (value : Bytes) : Operation
  /-- Remove key (`Operation::Remove`). -/
  | remove : Operation
deriving DecidableEq

/-- Modelled from the spec: a root digest of the trie engine (the
`trie`/`node`/`nibble` submodules are not under the sources in scrutiny).
Per §3 of the spec, canonical form makes the root digest a pure function of
the key/value set the trie stores, and the digest function (an external
collaborator) is deterministic and injective on canonical encodings; a root
digest is therefore modelled by the finite key/value map it commits to.
`Hash::empty_hash()` is the digest of the empty trie, modelled by `∅`. -/
abbrev Hash := Finmap (fun _ : Bytes => Bytes)

/-- Key/value contents committed to by an optional root (`None` denotes the
empty trie). -/
def contents (root : Option Hash) : Hash :=
  root.getD ∅

/-- Optional root for given contents: `none` exactly when the trie is
empty. -/
def toRoot (m : Hash) : Option Hash :=
  if m = ∅ then none else some m

/-- Modelled from the spec: health of the CAS backend (an external
collaborator).  `faulted` stands for an unreachable or corrupted backend,
which makes every trie operation that touches the CAS fail. -/
inductive CasState where
  | healthy : CasState
  | faulted : CasState
deriving DecidableEq

/-- Backend fault (spec §7: CAS unreachable, corrupted stored bytes, or a
digest referenced but not retrievable), the I/O-kind error a trie operation
propagates. -/
inductive IoError where
  | casUnreachable : IoError
deriving DecidableEq

namespace PatriciaTrie

/-- Modelled from the spec: `PatriciaTrie::get` — walks from `root`
(returning `none` immediately, without touching the CAS, if the root is the
empty sentinel) and returns the value stored for `key`, or `none` when
absent; against a faulted CAS the node fetch fails. -/
def get (cas : CasState) (root : Option Hash) (key : Bytes) : Except IoError (Option Bytes) :=
  match root, cas with
  | none, _ => Except.ok none
  | some h, CasState.healthy => Except.ok (h.lookup key)
  | some _, CasState.faulted => Except.error IoError.casUnreachable

/-- Modelled from the spec: `PatriciaTrie::insert` — returns the root of the
trie whose contents are the old contents with `key ↦ value`; always persists
new nodes through the CAS, so it fails against a faulted backend. -/
def insert (cas : CasState) (root : Option Hash) (key value : Bytes) : Except IoError Hash :=
  match cas with
  | CasState.healthy => Except.ok (Finmap.insert key value (contents root))
  | CasState.faulted => Except.error IoError.casUnreachable

/-- Modelled from the spec: `PatriciaTrie::remove` — returns the (optional)
root of the trie with `key` removed, `none` when the trie becomes (or was)
empty; removing from the empty trie touches no CAS node. -/
def remove (cas : CasState) (root : Option Hash) (key : Bytes) : Except IoError (Option Hash) :=
  match root, cas with
  | none, _ => Except.ok none
  | some h, CasState.healthy => Except.ok (toRoot (h.erase key))
  | some _, CasState.faulted => Except.error IoError.casUnreachable

end PatriciaTrie

/-- Lookup in the pending-operation buffer (`self.pending_ops.get(&key)` on
the `HashMap`). -/
def bufFind : List (Bytes × Operation) → Bytes → Option Operation
  | [], _ => none
  | (k, op) :: rest, key => if k = key then some op else bufFind rest key

/-- Record an operation in the pending-operation buffer
(`self.pending_ops.insert(key, op)` on the `HashMap`): the last write for a
key wins, only one operation per key is retained. -/
def bufInsert : List (Bytes × Operation) → Bytes → Operation → List (Bytes × Operation)
  | [], key, op => [(key, op)]
  | (k, op') :: rest, key, op =>
    if k = key then (key, op) :: rest else (k, op') :: bufInsert rest key op

/-- Seal data under the optional encryption context, as the wrapper does for
both keys and values (`ctx.mrae_ctx.seal(&ctx.nonce, data, vec![])` when a
context is present, the identity otherwise). -/
def sealWith : Option EncryptionContext → Bytes → Bytes
  | some ctx, data => ctx.mrae_ctx.seal ctx.nonce data []
  | none, data => data

/-- Modelled from the spec: the write log returned by `commit` — an ordered
sequence of (key, value-or-tombstone) entries describing the logical writes
applied (`WriteLog` lives outside the sources in scrutiny). -/
abbrev WriteLog := List (Bytes × Option Bytes)

/-- The store (`struct CASPatriciaTrie` in `mod.rs`).  The `trie` field of
the Rust struct only carries the CAS handle (modelled by the explicit
`CasState` argument of each operation) and no mutable state, so it has no
counterpart here. -/
structure CASPatriciaTrie where
  /-- Root hash (`root_hash`). -/
  root_hash : Option Hash
  /-- Pending operations since the last root hash was set (`pending_ops`,
  a `HashMap` modelled as an association list with unique keys). -/
  pending_ops : List (Bytes × Operation)
  /-- Encryption context with which to perform all operations (`enc_ctx`). -/
  enc_ctx : Option EncryptionContext
deriving DecidableEq

namespace CASPatriciaTrie

/-- `CASPatriciaTrie::new`: the root reference is `None` exactly when the
given hash is the empty-trie sentinel. -/
def new (root_hash : Hash) : CASPatriciaTrie :=
  { root_hash := if root_hash = ∅ then none else some root_hash
    pending_ops := []
    enc_ctx := none }

/-- `CASPatriciaTrie::get`: seal the key under the active context, consult
the pending-operation buffer first, fall through to the trie engine against
the last committed root, and decrypt a fetched value when a context is
active (authentication failure collapsed to `none` via `.ok()`). -/
def getC (cas : CasState) (s : CASPatriciaTrie) (key : Bytes) : Except IoError (Option Bytes) :=
  let ekey := sealWith s.enc_ctx key
  let fetched : Except IoError (Option Bytes) :=
    match bufFind s.pending_ops ekey with
    | some (Operation.insert v) => Except.ok (some v)
    | some Operation.remove => Except.ok none
    | none => PatriciaTrie.get cas s.root_hash ekey
  match fetched with
  | Except.error e => Except.error e
  | Except.ok value =>
    match s.enc_ctx, value with
    | some ctx, some v => Except.ok (DeoxysII.openA ctx.mrae_ctx ctx.nonce v [])
    | _, _ => Except.ok value

/-- `CASPatriciaTrie::insert`: compute the previous value via `getC`, seal
value and key under the active context, and record a pending insert in the
buffer. -/
def insertC (cas : CasState) (s : CASPatriciaTrie) (key value : Bytes) :
    Except IoError (CASPatriciaTrie × Option Bytes) :=
  match s.getC cas key with
  | Except.error e => Except.error e
  | Except.ok previous_value =>
    let evalue := sealWith s.enc_ctx value
    let ekey := sealWith s.enc_ctx key
    Except.ok
      ({ s with pending_ops := bufInsert s.pending_ops ekey (Operation.insert evalue) },
        previous_value)

/-- `CASPatriciaTrie::remove`: compute the previous value via `getC`, seal
the key under the active context, and record a pending remove in the
buffer. -/
def removeC (cas : CasState) (s : CASPatriciaTrie) (key : Bytes) :
    Except IoError (CASPatriciaTrie × Option Bytes) :=
  match s.getC cas key with
  | Except.error e => Except.error e
  | Except.ok previous_value =>
    let ekey := sealWith s.enc_ctx key
    Except.ok
      ({ s with pending_ops := bufInsert s.pending_ops ekey Operation.remove },
        previous_value)

end CASPatriciaTrie

/-- One iteration of the commit loop: apply a drained (key, operation) pair
to the accumulating root. -/
def applyOp (cas : CasState) (root : Option Hash) (key : Bytes) (op : Operation) :
    Except IoError (Option Hash) :=
  match op with
  | Operation.insert v => (PatriciaTrie.insert cas root key v).map some
  | Operation.remove => PatriciaTrie.remove cas root key

/-- The commit loop (`for (key, value) in self.pending_ops.drain()`):
apply the drained pairs sequentially to the accumulating root, stopping at
the first backend fault. -/
def applyOps (cas : CasState) (root : Option Hash) :
    List (Bytes × Operation) → Except IoError (Option Hash)
  | [] => Except.ok root
  | (key, op) :: rest =>
    match applyOp cas root key op with
    | Except.ok root' => applyOps cas root' rest
    | Except.error e => Except.error e

namespace CASPatriciaTrie

/-- `CASPatriciaTrie::commit`.  `HashMap::drain` yields the buffered pairs
in an arbitrary order, so the drained sequence is an explicit argument
(constrained to be a permutation of `pending_ops` where a theorem needs it).
On success the committed root is replaced and the returned digest is the new
root (`Hash::empty_hash()`, i.e. `∅`, for the empty trie) next to an always
empty write log; a backend fault propagates, leaving the committed root
unchanged (the drained buffer is gone either way). -/
def commitC (cas : CasState) (drain : List (Bytes × Operation)) (s : CASPatriciaTrie) :
    CASPatriciaTrie × Except IoError (WriteLog × Hash) :=
  match applyOps cas s.root_hash drain with
  | Except.error e => ({ s with pending_ops := [] }, Except.error e)
  | Except.ok root =>
    ({ s with root_hash := root, pending_ops := [] }, Except.ok ([], root.getD ∅))

/-- `CASPatriciaTrie::rollback`: clear the pending operations. -/
def rollback (s : CASPatriciaTrie) : CASPatriciaTrie :=
  { s with pending_ops := [] }

/-- `CASPatriciaTrie::set_encryption_key`.  Rust panics — modelled as
`none` — when the key is present but shorter than `KEY_SIZE` (the
`copy_from_slice(&raw_key[..KEY_SIZE])` slice), when a key is supplied
without a nonce (`nonce.unwrap()`), or when the nonce is shorter than
`NONCE_SIZE`; longer inputs are truncated to their fixed-size prefixes.
`key = none` clears the context.  (The `zeroize` of the key copy is memory
hygiene with no functional effect.) -/
def set_encryption_key (s : CASPatriciaTrie) (key : Option Bytes) (nonce : Option Bytes) :
    Option CASPatriciaTrie :=
  match key with
  | none => some { s with enc_ctx := none }
  | some raw_key =>
    if KEY_SIZE ≤ raw_key.length then
      match nonce with
      | none => none
      | some raw_nonce =>
        if NONCE_SIZE ≤ raw_nonce.length then
          some { s with
            enc_ctx := some
              { mrae_ctx := { key := raw_key.take KEY_SIZE }
                nonce := raw_nonce.take NONCE_SIZE } }
        else none
    else none

end CASPatriciaTrie

/-- Effect of one pending operation on the key/value contents of the trie
(the specification-level counterpart of `applyOp`). -/
def applyOpM (m : Hash) (key : Bytes) (op : Operation) : Hash :=
  match op with
  | Operation.insert v => m.insert key v
  | Operation.remove => m.erase key

/-- Effect of a drained sequence of pending operations on the key/value
contents of the trie. -/
def applyOpsM (m : Hash) : List (Bytes × Operation) → Hash
  | [] => m
  | (key, op) :: rest => applyOpsM (applyOpM m key op) rest

/-- The value `CASPatriciaTrie::get` fetches for an (already sealed) key
before any decryption: the buffered pending operation decides first, the
trie lookup against the committed root is the fallback. -/
def rawFetch (s : CASPatriciaTrie) (ekey : Bytes) : Option Bytes :=
  match bufFind s.pending_ops ekey with
  | some (Operation.insert v) => some v
  | some Operation.remove => none
  | none => (contents s.root_hash).lookup ekey

/-- Decryption step of `CASPatriciaTrie::get`: with an active context a
fetched value is authenticated-decrypted (failure collapsing to `none`),
otherwise it passes through unchanged. -/
def postDecrypt (ectx : Option EncryptionContext) (value : Option Bytes) : Option Bytes :=
  match ectx, value with
  | some ctx, some v => ctx.mrae_ctx.openA ctx.nonce v []
  | _, _ => value

/-- Wellformedness of a root reference: a present root digest is never the
empty sentinel (`CASPatriciaTrie::new` maps the empty hash to `None`, and
commits only ever store roots produced by `toRoot`). -/
def rootWF : Option Hash → Prop
  | none => True
  | some h => h ≠ ∅

/-- Wellformedness of a store: the root is wellformed and the buffer, being
the image of a `HashMap`, has no duplicate keys. -/
def StoreWF (s : CASPatriciaTrie) : Prop :=
  rootWF s.root_hash ∧ (s.pending_ops.map Prod.fst).Nodup

/-- Concrete encryption context used by concrete instances below:
a 32-byte key of 1s and a 15-byte nonce of 2s. -/
def encCtx0 : EncryptionContext :=
  { mrae_ctx := { key := List.replicate 32 1 }, nonce := List.replicate 15 2 }

/-- Concrete empty store carrying `encCtx0`. -/
def encStore0 : CASPatriciaTrie :=
  { root_hash := none, pending_ops := [], enc_ctx := some encCtx0 }

/-- Concrete store carrying `encCtx0` after a logical `insert([5], [9])`:
the buffered key and value are the sealed forms. -/
def encStore1 : CASPatriciaTrie :=
  { root_hash := none
    pending_ops :=
      [(DeoxysII.seal encCtx0.mrae_ctx encCtx0.nonce [5] [],
        Operation.insert (DeoxysII.seal encCtx0.mrae_ctx encCtx0.nonce [9] []))]
    enc_ctx := some encCtx0 }

/-- Concrete store carrying `encCtx0` whose buffer holds, for the sealed
form of key `[5]`, a pending insert of `[0]` — bytes that fail
authentication under `encCtx0`. -/
def encStoreBad : CASPatriciaTrie :=
  { root_hash := none
    pending_ops :=
      [(DeoxysII.seal encCtx0.mrae_ctx encCtx0.nonce [5] [], Operation.insert [0])]
    enc_ctx := some encCtx0 }

/-- Concrete store with a committed non-empty root (one key `[3] ↦ [7]`)
and an empty buffer. -/
def rootStore0 : CASPatriciaTrie :=
  { root_hash := some (Finmap.insert [3] [7] ∅), pending_ops := [], enc_ctx := none }

/-- Concrete store with an empty root and a two-key buffer, for exercising
drain orders. -/
def bufStore0 : CASPatriciaTrie :=
  { root_hash := none
    pending_ops := [([1], Operation.insert [2]), ([3], Operation.remove)]
    enc_ctx := none }

/-- Concrete store with an empty root and a one-element buffer. -/
def bufStore1 : CASPatriciaTrie :=
  { root_hash := none
    pending_ops := [([1], Operation.insert [2])]
    enc_ctx := none }

/-- The store `bufStore1` after recording a pending insert of `[5]` at
`[4]`. -/
def bufStore1Ins : CASPatriciaTrie :=
  { root_hash := none
    pending_ops := [([1], Operation.insert [2]), ([4], Operation.insert [5])]
    enc_ctx := none }

/-- The store `bufStore1` after recording a pending remove at `[4]`. -/
def bufStore1Rem : CASPatriciaTrie :=
  { root_hash := none
    pending_ops := [([1], Operation.insert [2]), ([4], Operation.remove)]
    enc_ctx := none }

/-! ### Supporting lemmas -/

/-- Erasing from the empty map is the empty map. -/
theorem erase_empty_hash (a : Bytes) : (∅ : Hash).erase a = ∅ := by
  apply Finmap.ext_lookup
  intro x
  by_cases hx : x = a
  · subst hx
    simp
  · rw [Finmap.lookup_erase_ne hx]

/-- A map with an inserted key is never empty. -/
theorem insert_ne_empty_hash (k v : Bytes) (m : Hash) : Finmap.insert k v m ≠ ∅ := by
  intro h
  have hk : k ∈ Finmap.insert k v m := Finmap.mem_insert.mpr (Or.inl rfl)
  rw [h] at hk
  exact Finmap.not_mem_empty hk

/-- Erase commutes with insertion at a different key. -/
theorem erase_insert_of_ne_hash {k1 k2 : Bytes} (v : Bytes) (m : Hash) (h : k1 ≠ k2) :
    (Finmap.insert k1 v m).erase k2 = Finmap.insert k1 v (m.erase k2) := by
  apply Finmap.ext_lookup
  intro x
  by_cases hx2 : x = k2
  · subst hx2
    rw [Finmap.lookup_erase, Finmap.lookup_insert_of_ne _ (Ne.symm h), Finmap.lookup_erase]
  · rw [Finmap.lookup_erase_ne hx2]
    by_cases hx1 : x = k1
    · subst hx1
      rw [Finmap.lookup_insert, Finmap.lookup_insert]
    · rw [Finmap.lookup_insert_of_ne _ hx1, Finmap.lookup_insert_of_ne _ hx1,
        Finmap.lookup_erase_ne hx2]

/-- Contents of the root for given contents: `toRoot` loses nothing. -/
theorem contents_toRoot (m : Hash) : contents (toRoot m) = m := by
  unfold toRoot contents
  by_cases h : m = ∅
  · simp [h]
  · simp [h]

/-- A root produced by `toRoot` is wellformed. -/
theorem rootWF_toRoot (m : Hash) : rootWF (toRoot m) := by
  unfold toRoot
  by_cases h : m = ∅
  · simp [h, rootWF]
  · simp [h, rootWF]

/-- On a wellformed root, `toRoot` and `contents` cancel. -/
theorem toRoot_contents {root : Option Hash} (h : rootWF root) : toRoot (contents root) = root := by
  cases root with
  | none => rfl
  | some m =>
    unfold rootWF at h
    unfold toRoot contents
    simp [h]

/-- One commit-loop step against a healthy CAS succeeds and acts on the trie
contents as `applyOpM`. -/
theorem applyOp_healthy (root : Option Hash) (key : Bytes) (op : Operation) :
    applyOp CasState.healthy root key op =
      Except.ok (toRoot (applyOpM (contents root) key op)) := by
  cases op with
  | insert v =>
    simp only [applyOp, PatriciaTrie.insert, applyOpM, Except.map]
    rw [toRoot, if_neg (insert_ne_empty_hash key v (contents root))]
  | remove =>
    cases root with
    | none =>
      simp only [applyOp, PatriciaTrie.remove, applyOpM, contents, Option.getD,
        erase_empty_hash]
      rw [toRoot, if_pos rfl]
    | some h =>
      simp only [applyOp, PatriciaTrie.remove, applyOpM, contents, Option.getD]

/-- The commit loop against a healthy CAS succeeds and acts on the trie
contents as `applyOpsM`. -/
theorem applyOps_healthy (l : List (Bytes × Operation)) (root : Option Hash)
    (hwf : rootWF root) :
    applyOps CasState.healthy root l = Except.ok (toRoot (applyOpsM (contents root) l)) := by
  induction l generalizing root with
  | nil =>
    simp only [applyOps, applyOpsM, toRoot_contents hwf]
  | cons p rest ih =>
    obtain ⟨key, op⟩ := p
    simp only [applyOps, applyOpsM, applyOp_healthy]
    rw [ih (toRoot (applyOpM (contents root) key op)) (rootWF_toRoot _), contents_toRoot]

/-- Pending operations on distinct keys act on the trie contents in either
order with the same result. -/
theorem applyOpM_comm {k1 k2 : Bytes} (m : Hash) (op1 op2 : Operation) (h : k1 ≠ k2) :
    applyOpM (applyOpM m k1 op1) k2 op2 = applyOpM (applyOpM m k2 op2) k1 op1 := by
  cases op1 with
  | insert v1 =>
    cases op2 with
    | insert v2 => exact Finmap.insert_insert_of_ne m h
    | remove => exact erase_insert_of_ne_hash v1 m h
  | remove =>
    cases op2 with
    | insert v2 => exact (erase_insert_of_ne_hash v2 m (Ne.symm h)).symm
    | remove => exact Finmap.erase_erase

/-- Permutations of a duplicate-free drained sequence act on the trie
contents with the same result. -/
theorem applyOpsM_perm {l1 l2 : List (Bytes × Operation)} (hp : l1.Perm l2)
    (hnd : (l1.map Prod.fst).Nodup) : ∀ m : Hash, applyOpsM m l1 = applyOpsM m l2 := by
  induction hp with
  | nil => intro m; rfl
  | cons x _ ih =>
    intro m
    simp only [List.map_cons, List.nodup_cons] at hnd
    obtain ⟨x1, x2⟩ := x
    simp only [applyOpsM]
    exact ih hnd.2 _
  | swap x y l =>
    intro m
    obtain ⟨x1, x2⟩ := x
    obtain ⟨y1, y2⟩ := y
    simp only [List.map_cons, List.nodup_cons, List.mem_cons] at hnd
    have hne : y1 ≠ x1 := fun h => hnd.1 (Or.inl h)
    simp only [applyOpsM]
    rw [applyOpM_comm m y2 x2 hne]
  | trans h12 _ ih1 ih2 =>
    intro m
    have hnd2 := ((h12.map Prod.fst).nodup_iff).mp hnd
    rw [ih1 hnd m, ih2 hnd2 m]

/-- Keys untouched by a drained sequence keep their value in the trie
contents. -/
theorem applyOpsM_lookup_not_mem {k : Bytes} :
    ∀ (l : List (Bytes × Operation)) (m : Hash), k ∉ l.map Prod.fst →
      (applyOpsM m l).lookup k = m.lookup k := by
  intro l
  induction l with
  | nil => intro m _; rfl
  | cons p rest ih =>
    intro m hk
    obtain ⟨k0, op0⟩ := p
    simp only [List.map_cons, List.mem_cons] at hk
    push_neg at hk
    simp only [applyOpsM]
    rw [ih _ hk.2]
    cases op0 with
    | insert v => exact Finmap.lookup_insert_of_ne m hk.1
    | remove => exact Finmap.lookup_erase_ne hk.1

/-- After draining a duplicate-free sequence containing a pending insert of
`v` at `k`, the trie contents hold `v` at `k`. -/
theorem applyOpsM_lookup_insert {k v : Bytes} :
    ∀ (l : List (Bytes × Operation)) (m : Hash), (l.map Prod.fst).Nodup →
      (k, Operation.insert v) ∈ l → (applyOpsM m l).lookup k = some v := by
  intro l
  induction l with
  | nil => intro m _ hmem; cases hmem
  | cons p rest ih =>
    intro m hnd hmem
    obtain ⟨k0, op0⟩ := p
    simp only [List.map_cons, List.nodup_cons] at hnd
    rcases List.mem_cons.mp hmem with heq | hmem'
    · rw [Prod.mk.injEq] at heq
      obtain ⟨hk, hop⟩ := heq
      subst hk
      subst hop
      simp only [applyOpsM, applyOpM]
      rw [applyOpsM_lookup_not_mem rest _ hnd.1, Finmap.lookup_insert]
    · exact ih _ hnd.2 hmem'

/-- A freshly recorded operation is what the buffer then reports for its
key. -/
theorem bufFind_bufInsert (ops : List (Bytes × Operation)) (k : Bytes) (op : Operation) :
    bufFind (bufInsert ops k op) k = some op := by
  induction ops with
  | nil => simp [bufInsert, bufFind]
  | cons p rest ih =>
    obtain ⟨k0, op0⟩ := p
    by_cases h : k0 = k
    · simp [bufInsert, bufFind, h]
    · simp only [bufInsert, if_neg h, bufFind]
      exact ih

/-- Recording an operation leaves the buffer's report for other keys
unchanged. -/
theorem bufFind_bufInsert_ne (ops : List (Bytes × Operation)) {k k' : Bytes} (op : Operation)
    (h : k' ≠ k) : bufFind (bufInsert ops k op) k' = bufFind ops k' := by
  induction ops with
  | nil => simp [bufInsert, bufFind, Ne.symm h]
  | cons p rest ih =>
    obtain ⟨k0, op0⟩ := p
    by_cases h0 : k0 = k
    · subst h0
      simp [bufInsert, bufFind, Ne.symm h]
    · simp only [bufInsert, if_neg h0, bufFind]
      by_cases h0' : k0 = k'
      · simp [h0']
      · rw [if_neg h0', if_neg h0']
        exact ih

/-- The keys of the buffer after recording an operation: unchanged when the
key was already buffered, extended by the key otherwise. -/
theorem bufInsert_keys (ops : List (Bytes × Operation)) (k : Bytes) (op : Operation) :
    (bufInsert ops k op).map Prod.fst =
      if k ∈ ops.map Prod.fst then ops.map Prod.fst else ops.map Prod.fst ++ [k] := by
  induction ops with
  | nil => simp [bufInsert]
  | cons p rest ih =>
    obtain ⟨k0, op0⟩ := p
    by_cases h : k0 = k
    · subst h
      simp [bufInsert]
    · simp only [bufInsert, if_neg h, List.map_cons, ih, List.mem_cons]
      have hkk0 : ¬k = k0 := fun hkk => h hkk.symm
      by_cases hk : k ∈ rest.map Prod.fst
      · rw [if_pos hk, if_pos (Or.inr hk)]
      · rw [if_neg hk, if_neg (fun hor => hor.elim hkk0 hk)]
        rfl

/-- Recording an operation preserves the buffer's unique-keys invariant. -/
theorem bufInsert_nodup {ops : List (Bytes × Operation)} (k : Bytes) (op : Operation)
    (hnd : (ops.map Prod.fst).Nodup) : ((bufInsert ops k op).map Prod.fst).Nodup := by
  rw [bufInsert_keys]
  by_cases hk : k ∈ ops.map Prod.fst
  · simpa [hk]
  · simp [hk, List.nodup_append, hnd]

/-- What the buffer reports is buffered. -/
theorem bufFind_mem {ops : List (Bytes × Operation)} {k : Bytes} {op : Operation}
    (h : bufFind ops k = some op) : (k, op) ∈ ops := by
  induction ops with
  | nil => cases h
  | cons p rest ih =>
    obtain ⟨k0, op0⟩ := p
    simp only [bufFind] at h
    by_cases h0 : k0 = k
    · rw [if_pos h0] at h
      subst h0
      cases h
      exact List.mem_cons_self _ _
    · rw [if_neg h0] at h
      exact List.mem_cons_of_mem _ (ih h)

/-- The buffer reports nothing exactly for keys it does not hold. -/
theorem bufFind_eq_none {ops : List (Bytes × Operation)} {k : Bytes} :
    bufFind ops k = none ↔ k ∉ ops.map Prod.fst := by
  induction ops with
  | nil => simp [bufFind]
  | cons p rest ih =>
    obtain ⟨k0, op0⟩ := p
    simp only [bufFind, List.map_cons, List.mem_cons]
    by_cases h0 : k0 = k
    · simp [h0]
    · have hkk0 : ¬k = k0 := fun hkk => h0 hkk.symm
      simp [h0, hkk0, ih]

/-- Against a healthy CAS, `get` never fails and returns the decryption of
the fetched value (buffer first, then trie). -/
theorem getC_healthy (s : CASPatriciaTrie) (key : Bytes) :
    CASPatriciaTrie.getC CasState.healthy s key =
      Except.ok (postDecrypt s.enc_ctx (rawFetch s (sealWith s.enc_ctx key))) := by
  unfold CASPatriciaTrie.getC rawFetch
  cases hb : bufFind s.pending_ops (sealWith s.enc_ctx key) with
  | some op =>
    cases op with
    | insert v =>
      simp only [hb]
      cases hc : s.enc_ctx with
      | none => simp only [postDecrypt]
      | some ctx => simp only [postDecrypt]
    | remove =>
      simp only [hb]
      cases hc : s.enc_ctx with
      | none => simp only [postDecrypt]
      | some ctx => simp only [postDecrypt]
  | none =>
    simp only [hb]
    cases hr : s.root_hash with
    | none =>
      simp only [PatriciaTrie.get, contents, Option.getD, Finmap.lookup_empty]
      cases hc : s.enc_ctx with
      | none => simp only [postDecrypt]
      | some ctx => simp only [postDecrypt]
    | some h =>
      simp only [PatriciaTrie.get, contents, Option.getD]
      cases hv : Finmap.lookup (sealWith s.enc_ctx key) h with
      | none =>
        cases hc : s.enc_ctx with
        | none => simp only [postDecrypt]
        | some ctx => simp only [postDecrypt]
      | some v =>
        cases hc : s.enc_ctx with
        | none => simp only [postDecrypt]
        | some ctx => simp only [postDecrypt]

/-- Against a healthy CAS, `insert` never fails: it returns the previous
logical value and records the sealed pending insert. -/
theorem insertC_healthy (s : CASPatriciaTrie) (key value : Bytes) :
    CASPatriciaTrie.insertC CasState.healthy s key value =
      Except.ok
        ({ s with
            pending_ops :=
              bufInsert s.pending_ops (sealWith s.enc_ctx key)
                (Operation.insert (sealWith s.enc_ctx value)) },
          postDecrypt s.enc_ctx (rawFetch s (sealWith s.enc_ctx key))) := by
  unfold CASPatriciaTrie.insertC
  rw [getC_healthy]

/-- Against a healthy CAS, `remove` never fails: it returns the previous
logical value and records the pending remove for the sealed key. -/
theorem removeC_healthy (s : CASPatriciaTrie) (key : Bytes) :
    CASPatriciaTrie.removeC CasState.healthy s key =
      Except.ok
        ({ s with
            pending_ops :=
              bufInsert s.pending_ops (sealWith s.enc_ctx key) Operation.remove },
          postDecrypt s.enc_ctx (rawFetch s (sealWith s.enc_ctx key))) := by
  unfold CASPatriciaTrie.removeC
  rw [getC_healthy]

/-- Against a healthy CAS, `commit` never fails: the committed root is
replaced by the root of the drained contents, the buffer empties, and the
returned digest commits to the new contents (with an always-empty write
log). -/
theorem commitC_healthy (s : CASPatriciaTrie) (drain : List (Bytes × Operation))
    (hwf : rootWF s.root_hash) :
    CASPatriciaTrie.commitC CasState.healthy drain s =
      ({ s with
          root_hash := toRoot (applyOpsM (contents s.root_hash) drain),
          pending_ops := [] },
        Except.ok ([], applyOpsM (contents s.root_hash) drain)) := by
  unfold CASPatriciaTrie.commitC
  rw [applyOps_healthy drain s.root_hash hwf]
  simp only []
  rw [show (toRoot (applyOpsM (contents s.root_hash) drain)).getD ∅ =
        contents (toRoot (applyOpsM (contents s.root_hash) drain)) from rfl,
      contents_toRoot]

/-- A successful `insert` produces exactly the store with the pending
insert recorded. -/
theorem insertC_ok_fields {cas : CasState} {s s' : CASPatriciaTrie} {key value : Bytes}
    {p : Option Bytes}
    (h : CASPatriciaTrie.insertC cas s key value = Except.ok (s', p)) :
    s' = { s with
      pending_ops := bufInsert s.pending_ops (sealWith s.enc_ctx key)
        (Operation.insert (sealWith s.enc_ctx value)) } := by
  unfold CASPatriciaTrie.insertC at h
  cases hg : CASPatriciaTrie.getC cas s key with
  | error e => rw [hg] at h; cases h
  | ok prev =>
    rw [hg] at h
    simp only [] at h
    injection h with h2
    rw [Prod.mk.injEq] at h2
    exact h2.1.symm

/-- A successful `remove` produces exactly the store with the pending
remove recorded. -/
theorem removeC_ok_fields {cas : CasState} {s s' : CASPatriciaTrie} {key : Bytes}
    {p : Option Bytes}
    (h : CASPatriciaTrie.removeC cas s key = Except.ok (s', p)) :
    s' = { s with
      pending_ops := bufInsert s.pending_ops (sealWith s.enc_ctx key) Operation.remove } := by
  unfold CASPatriciaTrie.removeC at h
  cases hg : CASPatriciaTrie.getC cas s key with
  | error e => rw [hg] at h; cases h
  | ok prev =>
    rw [hg] at h
    simp only [] at h
    injection h with h2
    rw [Prod.mk.injEq] at h2
    exact h2.1.symm

/-- A successful commit-loop step yields a wellformed root. -/
theorem applyOp_ok_rootWF {cas : CasState} {root root' : Option Hash} {key : Bytes}
    {op : Operation} (h : applyOp cas root key op = Except.ok root') : rootWF root' := by
  cases op with
  | insert v =>
    cases cas with
    | healthy =>
      simp only [applyOp, PatriciaTrie.insert, Except.map] at h
      injection h with h2
      rw [← h2]
      exact insert_ne_empty_hash key v (contents root)
    | faulted =>
      simp only [applyOp, PatriciaTrie.insert, Except.map] at h
      exact Except.noConfusion h
  | remove =>
    cases root with
    | none =>
      simp only [applyOp, PatriciaTrie.remove] at h
      injection h with h2
      rw [← h2]
      exact trivial
    | some m =>
      cases cas with
      | healthy =>
        simp only [applyOp, PatriciaTrie.remove] at h
        injection h with h2
        rw [← h2]
        exact rootWF_toRoot _
      | faulted =>
        simp only [applyOp, PatriciaTrie.remove] at h
        exact Except.noConfusion h

/-- A successful commit loop yields a wellformed root. -/
theorem applyOps_ok_rootWF {cas : CasState} :
    ∀ {l : List (Bytes × Operation)} {root root' : Option Hash},
      applyOps cas root l = Except.ok root' → rootWF root → rootWF root' := by
  intro l
  induction l with
  | nil =>
    intro root root' h hr
    simp only [applyOps] at h
    injection h with h2
    rw [← h2]
    exact hr
  | cons p rest ih =>
    intro root root' h hr
    obtain ⟨k, op⟩ := p
    simp only [applyOps] at h
    cases happ : applyOp cas root k op with
    | error e => rw [happ] at h; cases h
    | ok r1 =>
      rw [happ] at h
      exact ih h (applyOp_ok_rootWF happ)

/-- The commit loop against a healthy CAS always succeeds. -/
theorem applyOps_healthy_isOk (l : List (Bytes × Operation)) :
    ∀ root : Option Hash, ∃ r, applyOps CasState.healthy root l = Except.ok r := by
  induction l with
  | nil => intro root; exact ⟨root, rfl⟩
  | cons p rest ih =>
    intro root
    obtain ⟨k, op⟩ := p
    simp only [applyOps, applyOp_healthy]
    exact ih _

/-- Keys not buffered contribute nothing to a filter for them. -/
theorem buf_filter_not_mem {ops : List (Bytes × Operation)} {k : Bytes}
    (h : k ∉ ops.map Prod.fst) :
    ops.filter (fun p => decide (p.1 = k)) = [] := by
  induction ops with
  | nil => rfl
  | cons p rest ih =>
    obtain ⟨k0, op0⟩ := p
    simp only [List.map_cons, List.mem_cons] at h
    push_neg at h
    simp only [List.filter]
    rw [decide_eq_false (fun hkk : k0 = k => h.1 hkk.symm)]
    exact ih h.2

/-- In a duplicate-free buffer, recording an operation leaves exactly one
entry for its key. -/
theorem bufInsert_filter_self {ops : List (Bytes × Operation)} (k : Bytes) (op : Operation)
    (hnd : (ops.map Prod.fst).Nodup) :
    (bufInsert ops k op).filter (fun p => decide (p.1 = k)) = [(k, op)] := by
  induction ops with
  | nil => simp [bufInsert, List.filter]
  | cons p rest ih =>
    obtain ⟨k0, op0⟩ := p
    simp only [List.map_cons, List.nodup_cons] at hnd
    by_cases h : k0 = k
    · subst h
      simp only [bufInsert, if_pos rfl, if_true]
      rw [List.filter_cons]
      simp only [decide_eq_true_eq, if_true]
      rw [buf_filter_not_mem hnd.1]
    · simp only [bufInsert, if_neg h, List.filter]
      rw [decide_eq_false (fun hkk : k0 = k => h hkk)]
      exact ih hnd.2

/-- A fresh store is wellformed. -/
theorem storeWF_new (h : Hash) : StoreWF (CASPatriciaTrie.new h) := by
  constructor
  · unfold CASPatriciaTrie.new
    by_cases he : h = ∅
    · rw [if_pos he]
      exact trivial
    · rw [if_neg he]
      exact he
  · exact List.nodup_nil

/-- A successful `insert` preserves wellformedness. -/
theorem storeWF_insertC {cas : CasState} {s s' : CASPatriciaTrie} {key value : Bytes}
    {p : Option Bytes}
    (h : CASPatriciaTrie.insertC cas s key value = Except.ok (s', p)) (hwf : StoreWF s) :
    StoreWF s' := by
  rw [insertC_ok_fields h]
  exact ⟨hwf.1, bufInsert_nodup _ _ hwf.2⟩

/-- A successful `remove` preserves wellformedness. -/
theorem storeWF_removeC {cas : CasState} {s s' : CASPatriciaTrie} {key : Bytes}
    {p : Option Bytes}
    (h : CASPatriciaTrie.removeC cas s key = Except.ok (s', p)) (hwf : StoreWF s) :
    StoreWF s' := by
  rw [removeC_ok_fields h]
  exact ⟨hwf.1, bufInsert_nodup _ _ hwf.2⟩

/-- The store left behind by `commit` (successful or not) is wellformed. -/
theorem storeWF_commitC (cas : CasState) (drain : List (Bytes × Operation))
    {s : CASPatriciaTrie} (hwf : StoreWF s) :
    StoreWF (CASPatriciaTrie.commitC cas drain s).1 := by
  unfold CASPatriciaTrie.commitC
  cases h : applyOps cas s.root_hash drain with
  | error e => exact ⟨hwf.1, List.nodup_nil⟩
  | ok root' => exact ⟨applyOps_ok_rootWF h hwf.1, List.nodup_nil⟩

/-- `rollback` preserves wellformedness. -/
theorem storeWF_rollback {s : CASPatriciaTrie} (hwf : StoreWF s) : StoreWF s.rollback :=
  ⟨hwf.1, List.nodup_nil⟩

/-! ### Claims -/

/-- C1: For every store with a fixed committed root and a fixed set of
pending operations on distinct keys (the buffer's unique-keys invariant),
the root digest returned by `commit` is the same regardless of the order in
which the pending (key, operation) pairs are drained from the buffer and
applied to the trie. -/
theorem commit_root_independent_of_drain_order (s : CASPatriciaTrie)
    (l1 l2 : List (Bytes × Operation)) (hwf : StoreWF s)
    (h1 : l1.Perm s.pending_ops) (h2 : l2.Perm s.pending_ops) :
    CASPatriciaTrie.commitC CasState.healthy l1 s =
      CASPatriciaTrie.commitC CasState.healthy l2 s := by
  obtain ⟨hroot, hnd⟩ := hwf
  have h12 : l1.Perm l2 := h1.trans h2.symm
  have hnd1 : (l1.map Prod.fst).Nodup := ((h1.map Prod.fst).nodup_iff).mpr hnd
  rw [commitC_healthy s l1 hroot, commitC_healthy s l2 hroot,
    applyOpsM_perm h12 hnd1 (contents s.root_hash)]

/-- Witness for C1: a concrete two-key buffer drained in both orders. -/
theorem commit_root_independent_of_drain_order_witness :
    StoreWF bufStore0 ∧
    [([3], Operation.remove), ([1], Operation.insert [2])].Perm bufStore0.pending_ops ∧
    CASPatriciaTrie.commitC CasState.healthy bufStore0.pending_ops bufStore0 =
      CASPatriciaTrie.commitC CasState.healthy
        [([3], Operation.remove), ([1], Operation.insert [2])] bufStore0 :=
  ⟨⟨trivial, by decide⟩, by decide,
    commit_root_independent_of_drain_order bufStore0 _ _ ⟨trivial, by decide⟩
      (List.Perm.refl _) (by decide)⟩

/-- C4: For every store state and key/value, `insert` and `remove` leave
the committed root reference (and the encryption context) unchanged and
perform no trie or CAS mutation: their only state change is recording the
pending operation in the buffer. -/
theorem insert_remove_touch_only_buffer (cas : CasState) (s s1 s2 : CASPatriciaTrie)
    (key value : Bytes) (p1 p2 : Option Bytes) :
    (CASPatriciaTrie.insertC cas s key value = Except.ok (s1, p1) →
      s1.root_hash = s.root_hash ∧ s1.enc_ctx = s.enc_ctx ∧
      s1.pending_ops = bufInsert s.pending_ops (sealWith s.enc_ctx key)
        (Operation.insert (sealWith s.enc_ctx value))) ∧
    (CASPatriciaTrie.removeC cas s key = Except.ok (s2, p2) →
      s2.root_hash = s.root_hash ∧ s2.enc_ctx = s.enc_ctx ∧
      s2.pending_ops = bufInsert s.pending_ops (sealWith s.enc_ctx key) Operation.remove) := by
  constructor
  · intro h
    rw [insertC_ok_fields h]
    exact ⟨rfl, rfl, rfl⟩
  · intro h
    rw [removeC_ok_fields h]
    exact ⟨rfl, rfl, rfl⟩

/-- Witness for C4: concrete insert and remove leave root and context
unchanged and only extend the buffer. -/
theorem insert_remove_touch_only_buffer_witness :
    (bufStore1Ins.root_hash = bufStore1.root_hash ∧ bufStore1Ins.enc_ctx = bufStore1.enc_ctx ∧
      bufStore1Ins.pending_ops = bufInsert bufStore1.pending_ops
        (sealWith bufStore1.enc_ctx [4]) (Operation.insert (sealWith bufStore1.enc_ctx [5]))) ∧
    (bufStore1Rem.root_hash = bufStore1.root_hash ∧ bufStore1Rem.enc_ctx = bufStore1.enc_ctx ∧
      bufStore1Rem.pending_ops = bufInsert bufStore1.pending_ops
        (sealWith bufStore1.enc_ctx [4]) Operation.remove) :=
  ⟨(insert_remove_touch_only_buffer CasState.healthy bufStore1 bufStore1Ins bufStore1Rem
      [4] [5] none none).1 (by decide),
    (insert_remove_touch_only_buffer CasState.healthy bufStore1 bufStore1Ins bufStore1Rem
      [4] [5] none none).2 (by decide)⟩

/-- C5: Evaluation of `commit` at the failing input — the pending buffer of
`bufStore1` is non-empty, yet the returned write log is empty (`mod.rs`
always returns `Vec::new()`), so no change-log capturing the applied
logical writes is produced. -/
theorem commit_write_log_always_empty :
    bufStore1.pending_ops ≠ [] ∧
    (CASPatriciaTrie.commitC CasState.healthy bufStore1.pending_ops bufStore1).2 =
      Except.ok (([] : WriteLog), Finmap.insert [1] [2] ∅) :=
  ⟨by decide, by decide⟩

/-- C8: For every store state, `rollback` empties the pending-operation
buffer, leaves the committed root reference and the encryption context
unchanged, cannot fail, and is safe to call at any time, including when the
buffer is already empty (it is idempotent). -/
theorem rollback_clears_buffer_only (s : CASPatriciaTrie) :
    (s.rollback).pending_ops = [] ∧ (s.rollback).root_hash = s.root_hash ∧
    (s.rollback).enc_ctx = s.enc_ctx ∧ (s.rollback).rollback = s.rollback :=
  ⟨rfl, rfl, rfl, rfl⟩

/-- C10: Calling `set_encryption_key` with a present key but no nonce
always panics (modelled as `none`): a nonce is a mandatory companion of
every key installation even though the signature makes it optional. -/
theorem set_encryption_key_requires_nonce (s : CASPatriciaTrie) (raw_key : Bytes) :
    CASPatriciaTrie.set_encryption_key s (some raw_key) none = none := by
  simp only [CASPatriciaTrie.set_encryption_key]
  split
  · rfl
  · rfl

/-- C2 (counterexample): with an active encryption context, after a logical
`insert([5], [9])` the buffer holds a pending `Insert` whose value is the
sealed ciphertext, while `get([5])` returns the decrypted logical value
`[9]` — not the value of the pending `Insert` operation, refuting the claim
as stated. -/
theorem get_differs_from_buffered_insert_value :
    CASPatriciaTrie.insertC CasState.healthy encStore0 [5] [9] =
      Except.ok (encStore1, none) ∧
    bufFind encStore1.pending_ops (sealWith encStore1.enc_ctx [5]) =
      some (Operation.insert (DeoxysII.seal encCtx0.mrae_ctx encCtx0.nonce [9] [])) ∧
    DeoxysII.seal encCtx0.mrae_ctx encCtx0.nonce [9] [] ≠ [9] ∧
    CASPatriciaTrie.getC CasState.healthy encStore1 [5] = Except.ok (some [9]) :=
  ⟨by decide, by decide, by decide, by decide⟩

/-- C2 (amended): for every key, `get` consults the buffer for the
(possibly sealed) key first — a pending `Insert` yields its value after
decryption under the active context, a pending `Remove` yields `None` — and
otherwise returns the (similarly decrypted) trie lookup against the last
committed root; without an encryption context both sealing and decryption
are the identity, giving the claim's raw reading. -/
theorem get_consults_buffer_then_trie (s : CASPatriciaTrie) (key : Bytes) :
    (∀ v, bufFind s.pending_ops (sealWith s.enc_ctx key) = some (Operation.insert v) →
      CASPatriciaTrie.getC CasState.healthy s key =
        Except.ok (postDecrypt s.enc_ctx (some v))) ∧
    (bufFind s.pending_ops (sealWith s.enc_ctx key) = some Operation.remove →
      CASPatriciaTrie.getC CasState.healthy s key = Except.ok none) ∧
    (bufFind s.pending_ops (sealWith s.enc_ctx key) = none →
      CASPatriciaTrie.getC CasState.healthy s key =
        Except.ok (postDecrypt s.enc_ctx
          ((contents s.root_hash).lookup (sealWith s.enc_ctx key)))) ∧
    (s.enc_ctx = none → sealWith s.enc_ctx key = key ∧ ∀ w, postDecrypt s.enc_ctx w = w) := by
  refine ⟨?_, ?_, ?_, ?_⟩
  · intro v hv
    rw [getC_healthy]
    unfold rawFetch
    rw [hv]
  · intro hv
    rw [getC_healthy]
    unfold rawFetch
    rw [hv]
    cases hc : s.enc_ctx with
    | none => rfl
    | some ctx => rfl
  · intro hv
    rw [getC_healthy]
    unfold rawFetch
    rw [hv]
  · intro hc
    rw [hc]
    exact ⟨rfl, fun w => by cases w <;> rfl⟩

/-- Witness for C2 (amended): the buffered-insert clause evaluated at
`encStore1` and key `[5]`, and the trie-fallback clause at `rootStore0` and
key `[3]`. -/
theorem get_consults_buffer_then_trie_witness :
    CASPatriciaTrie.getC CasState.healthy encStore1 [5] =
      Except.ok (postDecrypt encStore1.enc_ctx
        (some (DeoxysII.seal encCtx0.mrae_ctx encCtx0.nonce [9] []))) ∧
    CASPatriciaTrie.getC CasState.healthy rootStore0 [3] =
      Except.ok (postDecrypt rootStore0.enc_ctx
        ((contents rootStore0.root_hash).lookup (sealWith rootStore0.enc_ctx [3]))) :=
  ⟨(get_consults_buffer_then_trie encStore1 [5]).1
      (DeoxysII.seal encCtx0.mrae_ctx encCtx0.nonce [9] []) (by decide),
    (get_consults_buffer_then_trie rootStore0 [3]).2.2.1 (by decide)⟩

/-- C7: with an active encryption context, an authenticated-decryption
failure on the fetched value makes `get` return `None` (indistinguishable
from absence), and `get` never returns a value that did not authenticate
against the fetched bytes. -/
theorem get_auth_failure_is_absence (s : CASPatriciaTrie) (ctx : EncryptionContext)
    (key : Bytes) (hctx : s.enc_ctx = some ctx) :
    (∀ v, rawFetch s (sealWith s.enc_ctx key) = some v →
      DeoxysII.openA ctx.mrae_ctx ctx.nonce v [] = none →
      CASPatriciaTrie.getC CasState.healthy s key = Except.ok none) ∧
    (∀ w, CASPatriciaTrie.getC CasState.healthy s key = Except.ok (some w) →
      ∃ v, rawFetch s (sealWith s.enc_ctx key) = some v ∧
        DeoxysII.openA ctx.mrae_ctx ctx.nonce v [] = some w) := by
  constructor
  · intro v hv hopen
    rw [getC_healthy, hv, hctx]
    simp only [postDecrypt]
    rw [hopen]
  · intro w hw
    rw [getC_healthy, hctx] at hw
    rw [hctx]
    cases hf : rawFetch s (sealWith (some ctx) key) with
    | none =>
      rw [hf] at hw
      simp only [postDecrypt] at hw
      injection hw with hw2
      cases hw2
    | some v =>
      rw [hf] at hw
      simp only [postDecrypt] at hw
      injection hw with hw2
      exact ⟨v, rfl, hw2⟩

/-- Witness for C7: a buffered value that fails authentication makes `get`
return `None`. -/
theorem get_auth_failure_is_absence_witness :
    rawFetch encStoreBad (sealWith encStoreBad.enc_ctx [5]) = some [0] ∧
    DeoxysII.openA encCtx0.mrae_ctx encCtx0.nonce [0] [] = none ∧
    CASPatriciaTrie.getC CasState.healthy encStoreBad [5] = Except.ok none :=
  ⟨by decide, by decide,
    (get_auth_failure_is_absence encStoreBad encCtx0 [5] rfl).1 [0] (by decide) (by decide)⟩

/-- C3: without an encryption context, `insert(K, V1)` then `insert(K, V2)`
makes the second insert return `Some(V1)` as the previous value, leaves
exactly one pending operation for `K` in the buffer (the last write wins),
and after `commit()` (under any drain order) `get(K)` returns `V2`. -/
theorem insert_twice_last_write_wins (s : CASPatriciaTrie) (K V1 V2 : Bytes)
    (henc : s.enc_ctx = none) (hwf : StoreWF s) :
    ∃ (s1 s2 : CASPatriciaTrie) (p1 : Option Bytes),
      CASPatriciaTrie.insertC CasState.healthy s K V1 = Except.ok (s1, p1) ∧
      CASPatriciaTrie.insertC CasState.healthy s1 K V2 = Except.ok (s2, some V1) ∧
      (s2.pending_ops.filter (fun p => decide (p.1 = K))).length = 1 ∧
      ∀ drain, drain.Perm s2.pending_ops →
        CASPatriciaTrie.getC CasState.healthy
          (CASPatriciaTrie.commitC CasState.healthy drain s2).1 K =
          Except.ok (some V2) := by
  obtain ⟨hroot, hnd⟩ := hwf
  have h1 := insertC_healthy s K V1
  rw [henc] at h1
  simp only [sealWith, postDecrypt] at h1
  have h2 := insertC_healthy
    { root_hash := s.root_hash
      pending_ops := bufInsert s.pending_ops K (Operation.insert V1)
      enc_ctx := none } K V2
  simp only [sealWith, postDecrypt, rawFetch, bufFind_bufInsert] at h2
  have h3 : (List.filter (fun p => decide (p.1 = K))
      (bufInsert (bufInsert s.pending_ops K (Operation.insert V1)) K
        (Operation.insert V2))).length = 1 := by
    rw [bufInsert_filter_self K (Operation.insert V2) (bufInsert_nodup _ _ hnd)]
    rfl
  have h4 : ∀ drain,
      drain.Perm (bufInsert (bufInsert s.pending_ops K (Operation.insert V1)) K
        (Operation.insert V2)) →
      CASPatriciaTrie.getC CasState.healthy
        (CASPatriciaTrie.commitC CasState.healthy drain
          { root_hash := s.root_hash
            pending_ops := bufInsert (bufInsert s.pending_ops K (Operation.insert V1)) K
              (Operation.insert V2)
            enc_ctx := none }).1 K = Except.ok (some V2) := by
    intro drain hperm
    have hnd2 : ((bufInsert (bufInsert s.pending_ops K (Operation.insert V1)) K
        (Operation.insert V2)).map Prod.fst).Nodup :=
      bufInsert_nodup _ _ (bufInsert_nodup _ _ hnd)
    have hnddrain : (drain.map Prod.fst).Nodup :=
      ((hperm.map Prod.fst).nodup_iff).mpr hnd2
    have hmem : (K, Operation.insert V2) ∈ drain :=
      hperm.mem_iff.mpr (bufFind_mem (bufFind_bufInsert _ K (Operation.insert V2)))
    rw [commitC_healthy
      { root_hash := s.root_hash
        pending_ops := bufInsert (bufInsert s.pending_ops K (Operation.insert V1)) K
          (Operation.insert V2)
        enc_ctx := none } drain hroot]
    rw [getC_healthy]
    simp only [sealWith, postDecrypt, rawFetch, bufFind]
    rw [show contents (toRoot (applyOpsM (contents s.root_hash) drain)) =
        applyOpsM (contents s.root_hash) drain from contents_toRoot _]
    rw [applyOpsM_lookup_insert drain _ hnddrain hmem]
  exact ⟨_, _, _, h1, h2, h3, h4⟩

/-- Witness for C3 on a concrete store: two inserts at key `[1]`, then a
commit of the resulting buffer. -/
theorem insert_twice_last_write_wins_witness :
    bufStore1.enc_ctx = none ∧ StoreWF bufStore1 ∧
    (∃ (s1 s2 : CASPatriciaTrie) (p1 : Option Bytes),
      CASPatriciaTrie.insertC CasState.healthy bufStore1 [1] [6] = Except.ok (s1, p1) ∧
      CASPatriciaTrie.insertC CasState.healthy s1 [1] [7] = Except.ok (s2, some [6]) ∧
      (s2.pending_ops.filter (fun p => decide (p.1 = [1]))).length = 1 ∧
      ∀ drain, drain.Perm s2.pending_ops →
        CASPatriciaTrie.getC CasState.healthy
          (CASPatriciaTrie.commitC CasState.healthy drain s2).1 [1] =
          Except.ok (some [7])) :=
  ⟨rfl, ⟨trivial, by decide⟩,
    insert_twice_last_write_wins bufStore1 [1] [6] [7] rfl ⟨trivial, by decide⟩⟩

/-- Against a faulted CAS, a `get` whose previous-value lookup misses the
buffer and falls through to a trie read against a committed root propagates
the I/O error. -/
theorem getC_faulted_of_trie_read {s : CASPatriciaTrie} {key : Bytes} {h : Hash}
    (hs : s.root_hash = some h)
    (hb : bufFind s.pending_ops (sealWith s.enc_ctx key) = none) :
    CASPatriciaTrie.getC CasState.faulted s key = Except.error IoError.casUnreachable := by
  unfold CASPatriciaTrie.getC
  simp only [hb, hs, PatriciaTrie.get]

/-- C6 (counterexample): against an unreachable CAS and a store with a
committed root, `get`, `insert` and `remove` all propagate the I/O error
(each previous-value lookup falls through to a trie read), refuting the
claim that they never return or raise an error for any input; and a commit
of an empty buffer succeeds despite the unreachable backend, refuting the
claim that `commit` fails exactly when the CAS is unreachable or
corrupted. -/
theorem cas_fault_propagation_counterexample :
    CASPatriciaTrie.getC CasState.faulted rootStore0 [3] =
      Except.error IoError.casUnreachable ∧
    CASPatriciaTrie.insertC CasState.faulted rootStore0 [3] [7] =
      Except.error IoError.casUnreachable ∧
    CASPatriciaTrie.removeC CasState.faulted rootStore0 [3] =
      Except.error IoError.casUnreachable ∧
    (CASPatriciaTrie.commitC CasState.faulted [] rootStore0).2 =
      Except.ok ([], Finmap.insert [3] [7] ∅) :=
  ⟨by decide, by decide, by decide, by decide⟩

/-- C6 (amended): with a healthy CAS, `get`, `insert`, `remove` and
`commit` never fail; against an unreachable or corrupted CAS, `commit` on a
store with a committed root and a non-empty drained buffer fails with an
I/O-kind error, every commit failure leaves the previously committed root
unchanged, a commit of an empty buffer succeeds without touching the CAS,
and `get`, `insert` and `remove` themselves propagate the CAS fault
whenever the previous-value lookup misses the buffer and falls through to a
trie read against a committed root. -/
theorem commit_sole_failure_point :
    (∀ (s : CASPatriciaTrie) (key : Bytes), ∃ v,
      CASPatriciaTrie.getC CasState.healthy s key = Except.ok v) ∧
    (∀ (s : CASPatriciaTrie) (key value : Bytes), ∃ r,
      CASPatriciaTrie.insertC CasState.healthy s key value = Except.ok r) ∧
    (∀ (s : CASPatriciaTrie) (key : Bytes), ∃ r,
      CASPatriciaTrie.removeC CasState.healthy s key = Except.ok r) ∧
    (∀ (s : CASPatriciaTrie) (drain : List (Bytes × Operation)), ∃ out,
      (CASPatriciaTrie.commitC CasState.healthy drain s).2 = Except.ok out) ∧
    (∀ (s : CASPatriciaTrie) (drain : List (Bytes × Operation)) (h : Hash),
      s.root_hash = some h → drain ≠ [] →
      (CASPatriciaTrie.commitC CasState.faulted drain s).2 =
        Except.error IoError.casUnreachable) ∧
    (∀ (cas : CasState) (s : CASPatriciaTrie) (drain : List (Bytes × Operation)) (e : IoError),
      (CASPatriciaTrie.commitC cas drain s).2 = Except.error e →
      (CASPatriciaTrie.commitC cas drain s).1.root_hash = s.root_hash) ∧
    (∀ (cas : CasState) (s : CASPatriciaTrie),
      (CASPatriciaTrie.commitC cas [] s).2 =
        Except.ok ([], contents s.root_hash)) ∧
    (∀ (s : CASPatriciaTrie) (key : Bytes) (h : Hash),
      s.root_hash = some h → bufFind s.pending_ops (sealWith s.enc_ctx key) = none →
      CASPatriciaTrie.getC CasState.faulted s key =
        Except.error IoError.casUnreachable) ∧
    (∀ (s : CASPatriciaTrie) (key value : Bytes) (h : Hash),
      s.root_hash = some h → bufFind s.pending_ops (sealWith s.enc_ctx key) = none →
      CASPatriciaTrie.insertC CasState.faulted s key value =
        Except.error IoError.casUnreachable) ∧
    (∀ (s : CASPatriciaTrie) (key : Bytes) (h : Hash),
      s.root_hash = some h → bufFind s.pending_ops (sealWith s.enc_ctx key) = none →
      CASPatriciaTrie.removeC CasState.faulted s key =
        Except.error IoError.casUnreachable) := by
  refine ⟨?_, ?_, ?_, ?_, ?_, ?_, ?_, ?_, ?_, ?_⟩
  · intro s key
    exact ⟨_, getC_healthy s key⟩
  · intro s key value
    exact ⟨_, insertC_healthy s key value⟩
  · intro s key
    exact ⟨_, removeC_healthy s key⟩
  · intro s drain
    obtain ⟨r, hr⟩ := applyOps_healthy_isOk drain s.root_hash
    unfold CASPatriciaTrie.commitC
    rw [hr]
    exact ⟨_, rfl⟩
  · intro s drain h hs hdrain
    unfold CASPatriciaTrie.commitC
    cases drain with
    | nil => exact absurd rfl hdrain
    | cons p rest =>
      obtain ⟨k, op⟩ := p
      rw [hs]
      cases op with
      | insert v => rfl
      | remove => rfl
  · intro cas s drain e h
    unfold CASPatriciaTrie.commitC at h ⊢
    cases hr : applyOps cas s.root_hash drain with
    | error e' => rfl
    | ok root' =>
      rw [hr] at h
      cases h
  · intro cas s
    rfl
  · intro s key h hs hb
    exact getC_faulted_of_trie_read hs hb
  · intro s key value h hs hb
    unfold CASPatriciaTrie.insertC
    rw [getC_faulted_of_trie_read hs hb]
  · intro s key h hs hb
    unfold CASPatriciaTrie.removeC
    rw [getC_faulted_of_trie_read hs hb]

/-- Witness for C6 (amended): the faulted-commit clause at a concrete store
with a committed root, root preservation on that failure, and the
fault-propagation clauses for `get`, `insert` and `remove` at the same
store. -/
theorem commit_sole_failure_point_witness :
    ((CASPatriciaTrie.commitC CasState.faulted [([1], Operation.insert [2])] rootStore0).2 =
      Except.error IoError.casUnreachable) ∧
    ((CASPatriciaTrie.commitC CasState.faulted
        [([1], Operation.insert [2])] rootStore0).1.root_hash = rootStore0.root_hash) ∧
    (CASPatriciaTrie.getC CasState.faulted rootStore0 [5] =
      Except.error IoError.casUnreachable) ∧
    (CASPatriciaTrie.insertC CasState.faulted rootStore0 [5] [8] =
      Except.error IoError.casUnreachable) ∧
    (CASPatriciaTrie.removeC CasState.faulted rootStore0 [5] =
      Except.error IoError.casUnreachable) :=
  ⟨commit_sole_failure_point.2.2.2.2.1 rootStore0 [([1], Operation.insert [2])]
      (Finmap.insert [3] [7] ∅) rfl (by decide),
    commit_sole_failure_point.2.2.2.2.2.1 CasState.faulted rootStore0
      [([1], Operation.insert [2])] IoError.casUnreachable (by decide),
    commit_sole_failure_point.2.2.2.2.2.2.2.1 rootStore0 [5]
      (Finmap.insert [3] [7] ∅) rfl (by decide),
    commit_sole_failure_point.2.2.2.2.2.2.2.2.1 rootStore0 [5] [8]
      (Finmap.insert [3] [7] ∅) rfl (by decide),
    commit_sole_failure_point.2.2.2.2.2.2.2.2.2 rootStore0 [5]
      (Finmap.insert [3] [7] ∅) rfl (by decide)⟩

/-- C9 (counterexample): installing a key longer than `KEY_SIZE` (33 bytes)
with a nonce longer than `NONCE_SIZE` (16 bytes) is not a hard failure: it
succeeds, silently truncating both to their fixed-size prefixes, refuting
the claim that any wrong-sized key or nonce fails. -/
theorem set_encryption_key_truncates_oversize :
    (List.replicate 33 7).length ≠ KEY_SIZE ∧
    CASPatriciaTrie.set_encryption_key (CASPatriciaTrie.new ∅)
        (some (List.replicate 33 7)) (some (List.replicate 16 3)) =
      some { CASPatriciaTrie.new ∅ with
        enc_ctx := some
          { mrae_ctx := { key := List.replicate 32 7 }
            nonce := List.replicate 15 3 } } :=
  ⟨by decide, by decide⟩

/-- C9 (amended): `set_encryption_key` with a key or nonce shorter than its
required fixed size panics (a hard failure, modelled as `none`); longer keys
and nonces are silently truncated to their `KEY_SIZE`/`NONCE_SIZE` prefixes;
`key = None` clears the encryption context. -/
theorem set_encryption_key_size_handling (s : CASPatriciaTrie) (rk rn : Bytes)
    (rno : Option Bytes) :
    (CASPatriciaTrie.set_encryption_key s none rno = some { s with enc_ctx := none }) ∧
    (rk.length < KEY_SIZE →
      CASPatriciaTrie.set_encryption_key s (some rk) (some rn) = none) ∧
    (KEY_SIZE ≤ rk.length → rn.length < NONCE_SIZE →
      CASPatriciaTrie.set_encryption_key s (some rk) (some rn) = none) ∧
    (KEY_SIZE ≤ rk.length → NONCE_SIZE ≤ rn.length →
      CASPatriciaTrie.set_encryption_key s (some rk) (some rn) =
        some { s with
          enc_ctx := some
            { mrae_ctx := { key := rk.take KEY_SIZE }
              nonce := rn.take NONCE_SIZE } }) := by
  refine ⟨rfl, ?_, ?_, ?_⟩
  · intro hk
    simp only [CASPatriciaTrie.set_encryption_key]
    rw [if_neg (Nat.not_le.mpr hk)]
  · intro hk hn
    simp only [CASPatriciaTrie.set_encryption_key]
    rw [if_pos hk, if_neg (Nat.not_le.mpr hn)]
  · intro hk hn
    simp only [CASPatriciaTrie.set_encryption_key]
    rw [if_pos hk, if_pos hn]

/-- Witness for C9 (amended): all four clauses at concrete inputs — clear,
short key, short nonce, and exact-size installation. -/
theorem set_encryption_key_size_handling_witness :
    (CASPatriciaTrie.set_encryption_key bufStore1 none none =
      some { bufStore1 with enc_ctx := none }) ∧
    (CASPatriciaTrie.set_encryption_key bufStore1 (some [1, 2, 3])
        (some (List.replicate 15 0)) = none) ∧
    (CASPatriciaTrie.set_encryption_key bufStore1 (some (List.replicate 32 1))
        (some [4, 5])= none) ∧
    (CASPatriciaTrie.set_encryption_key bufStore1 (some (List.replicate 32 1))
        (some (List.replicate 15 2)) =
      some { bufStore1 with
        enc_ctx := some
          { mrae_ctx := { key := (List.replicate 32 1).take KEY_SIZE }
            nonce := (List.replicate 15 2).take NONCE_SIZE } }) :=
  ⟨(set_encryption_key_size_handling bufStore1 [] [] none).1,
    (set_encryption_key_size_handling bufStore1 [1, 2, 3] (List.replicate 15 0) none).2.1
      (by decide),
    (set_encryption_key_size_handling bufStore1 (List.replicate 32 1) [4, 5] none).2.2.1
      (by decide) (by decide),
    (set_encryption_key_size_handling bufStore1 (List.replicate 32 1)
        (List.replicate 15 2) none).2.2.2 (by decide) (by decide)⟩
